import Mathlib

/-!
Shallow embedding of the job-queue core of `src/backend/src/job_queue.rs`.

The persistent store (one SQL table `job_queue`) is modelled as a `List Row`;
every operation of `JobQueue` becomes a pure function from the table (and the
few ambient inputs: the current time, the generated id) to its result and the
new table.  UUIDs and timestamps are modelled as `Nat`; the `priority` column
is `SMALLINT`, so the stored value is an `Int` obtained from the `u16`
argument by the Rust `as i16` wrapping cast.  JSON values are modelled by the
fragment the code can produce: the only payload is an integer.
-/

namespace JobQueue

/-- JSON values, restricted to the fragment exchanged by this module
(serde_json::Value with integer numbers; the only command payload is an
integer, see `JobCommand`). -/
inductive Json where
  | null
  | bool (b : Bool)
  | num (n : Int)
  | str (s : String)
  | arr (xs : List Json)
  | obj (fields : List (String × Json))

/-- Modelled from the spec: `BranchRef` is defined in the `branch` module,
which is not under `src/`.  The spec treats command payloads as opaque
serializable values, and the repository's tests construct one from an
integer literal (`JobCommand::SyncBranch(1)`), so it is modelled as an
integer. -/
abbrev BranchRef := Int

/-- The command enum of `job_queue.rs`: `#[serde(tag = "t", content = "c",
rename = "kebab-case")]` with the single variant `SyncBranch(BranchRef)`.
Note serde's `rename` (unlike `rename_all`) renames the container, which the
tagged representation never emits, so the wire tag of the variant stays
`"SyncBranch"`. -/
inductive JobCommand where
  | syncBranch (b : BranchRef)
deriving DecidableEq

/-- The value `serde_json::to_value` produces for a `JobCommand` under the
adjacently-tagged representation `tag = "t", content = "c"`.  For this enum
(an integer payload) serialization cannot fail, so the function is total. -/
def JobCommand.toValue : JobCommand → Json
  | .syncBranch b => .obj [("t", .str "SyncBranch"), ("c", .num b)]

/-- The code's `JobCommand::serialize`: take `to_value`, read field `"t"` as a
string and remove field `"c"`.  The three `unwrap()` calls are modelled by
`Option`: a `none` result corresponds to a panic. -/
def JobCommand.serialize (c : JobCommand) : Option (String × Json) :=
  match c.toValue with
  | .obj fields =>
    match fields.lookup "t", fields.lookup "c" with
    | some (.str t), some cval => some (t, cval)
    | _, _ => none
  | _ => none

/-- The code's `JobCommand::deserialize`: rebuild `{"t": kind, "c": value}`
and run serde's adjacently-tagged enum deserializer.  It matches `kind`
against the variant names and then decodes the payload (`BranchRef`, an
integer) from `value`; anything else is a decode error. -/
def JobCommand.deserialize (kind : String) (value : Json) : Except String JobCommand :=
  if kind = "SyncBranch" then
    match value with
    | .num n => .ok (.syncBranch n)
    | _ => .error "invalid type for BranchRef"
  else
    .error ("unknown variant " ++ kind)

/-- Whether a JSON value matches the payload schema of some command kind
(the only kind, `SyncBranch`, takes an integer payload). -/
def payloadIsNum : Json → Bool
  | .num _ => true
  | _ => false

/-- One row of the `job_queue` table. -/
structure Row where
  id : Nat
  kind : String
  data : Json
  priority : Int
  started_at : Option Nat

/-- The snapshot `Job { id, command }` returned by `fetch_and_start`. -/
structure Job where
  id : Nat
  command : JobCommand
deriving DecidableEq

/-- The error enum `JobQueueError`. -/
inductive JobQueueError where
  | jobAborted (id : Nat)
deriving DecidableEq

/-- A row is pending iff `started_at` is null. -/
def isPending (r : Row) : Bool := r.started_at.isNone

/-- The Rust cast `priority as i16` on a `u16` argument: wrapping
reinterpretation, so values at and above `2^15` become negative. -/
def u16ToI16 (p : Nat) : Int :=
  if p % 65536 < 32768 then (p % 65536 : Int) else (p % 65536 : Int) - 65536

/-- The queue's ordering `ORDER BY priority DESC, id ASC`: `keyLt a b` holds
when row `a` is served strictly before row `b`. -/
def keyLt (a b : Row) : Prop :=
  b.priority < a.priority ∨ (a.priority = b.priority ∧ a.id < b.id)

instance (a b : Row) : Decidable (keyLt a b) :=
  inferInstanceAs (Decidable (_ ∨ _))

/-- The `SELECT ... ORDER BY priority DESC, id ASC LIMIT 1` of
`fetch_and_start`, over an already-filtered row list: the minimum row under
`keyLt` (ties cannot arise between rows with distinct ids). -/
def selectMin : List Row → Option Row
  | [] => none
  | r :: rs =>
    match selectMin rs with
    | none => some r
    | some m => if keyLt m r then some m else some r

/-- Effect of the conditional update on one row: rows matching `id = i AND
started_at IS NULL` get `started_at = now`; all others are untouched. -/
def casFn (now i : Nat) (r : Row) : Row :=
  if r.id = i ∧ isPending r then { r with started_at := some now } else r

/-- The conditional update `UPDATE job_queue SET started_at = now WHERE id = i
AND started_at IS NULL`: the affected-row count and the updated table. -/
def casUpdate (now i : Nat) (t : List Row) : Nat × List Row :=
  ((t.filter fun r => decide (r.id = i) && isPending r).length,
   t.map (casFn now i))

/-- The code's `fetch_and_start`, sequentially: select the top pending row,
conditionally mark it started, decode its command.  In this single-caller
model the conditional update always hits (`fetch_cas_hits` below), so the
source's retry loop on a lost race runs exactly once; the race itself is
modelled by the `Step` system further down. -/
def fetch_and_start (now : Nat) (t : List Row) : Except String (Option Job) × List Row :=
  match selectMin (t.filter fun r => isPending r) with
  | none => (.ok none, t)
  | some r =>
    let t' := (casUpdate now r.id t).2
    match JobCommand.deserialize r.kind r.data with
    | .error e => (.error e, t')
    | .ok cmd => (.ok (some { id := r.id, command := cmd }), t')

/-- A row survives the delete of `finish_job i` when it does not match
`id = i AND started_at IS NOT NULL`. -/
def finishKeep (i : Nat) (r : Row) : Bool := !(decide (r.id = i) && !(isPending r))

/-- The code's `finish_job`: `DELETE FROM job_queue WHERE id = i AND
started_at IS NOT NULL`; zero affected rows is the `JobAborted` error.  The
second component is the table after the call. -/
def finish_job (t : List Row) (i : Nat) : Except JobQueueError Unit × List Row :=
  if t.length - (t.filter (finishKeep i)).length = 0 then
    (.error (.jobAborted i), t)
  else
    (.ok (), t.filter (finishKeep i))

/-- The code's `count_pending`: `SELECT COUNT(*) FROM job_queue WHERE
started_at IS NOT NULL LIMIT max`.  The aggregate produces a single result
row holding the full count; `LIMIT` applies to the result rows, not to the
counted value, and diesel's `get_result` errors (`NotFound`) only when the
result set is empty, i.e. when `max = 0`. -/
def count_pending (t : List Row) (max : Nat) : Except String Nat :=
  let rows := [(t.filter fun r => ¬ isPending r).length]
  match rows.take max with
  | [] => .error "NotFound"
  | n :: _ => .ok n

/-- The code's `enqueue_with_priority`: serialize the command and insert one
row with the freshly generated id `g`, the (cast) priority, and a null
`started_at`.  `Uuid::now_v7()` is external; it is modelled by the parameter
`g`, with its time-ordering expressed as a hypothesis (`r.id < g` for
existing rows) where a claim needs it.  A `none` result covers both a
serialization error and a panic inside `serialize`. -/
def enqueue_with_priority (g : Nat) (t : List Row) (job : JobCommand)
    (priority : Nat) : Option (List Row) :=
  match job.serialize with
  | none => none
  | some (kind, data) =>
    some (t ++ [{ id := g, kind := kind, data := data,
                  priority := u16ToI16 priority, started_at := none }])

/-- The code's `enqueue`: `enqueue_with_priority` at the default priority
`100`. -/
def enqueue (g : Nat) (t : List Row) (job : JobCommand) : Option (List Row) :=
  enqueue_with_priority g t job 100

/-- Number of pending rows in a table. -/
def pendingCount (t : List Row) : Nat := (t.filter fun r => isPending r).length

/-- A table is well formed when every row's stored `(kind, data)` pair
decodes; rows written by `enqueue` always are (see the round-trip law). -/
def wellFormed (t : List Row) : Prop :=
  ∀ r ∈ t, (JobCommand.deserialize r.kind r.data).isOk

instance (t : List Row) : Decidable (wellFormed t) :=
  inferInstanceAs
    (Decidable (∀ r ∈ t, (JobCommand.deserialize r.kind r.data).isOk = true))

/-- Repeatedly call `fetch_and_start`, collecting the returned jobs, up to
`fuel` calls; stops at the first "no job" (or error) answer. -/
def drain (now : Nat) : Nat → List Row → List Job
  | 0, _ => []
  | fuel + 1, t =>
    match fetch_and_start now t with
    | (.ok (some j), t') => j :: drain now fuel t'
    | _ => []

/-- One id occurs strictly before another in a list. -/
def occursBefore (x y : Nat) (l : List Nat) : Prop :=
  ∃ l1 l2 l3, l = l1 ++ x :: l2 ++ y :: l3

/-- Local state of one concurrent `fetch_and_start` caller: between the
select and the conditional update it holds the selected id; a lost race
(`continue` in the source) sends it back to the select. -/
inductive WorkerState where
  | idle
  | selected (i : Nat)
  | returned (res : Option Nat)
deriving DecidableEq

/-- Shared table plus the local states of arbitrarily many callers. -/
structure Sys where
  table : List Row
  workers : Nat → WorkerState

/-- The id the select query of `fetch_and_start` returns on the current
table. -/
def selectId (t : List Row) : Option Nat :=
  (selectMin (t.filter fun r => isPending r)).map Row.id

/-- Interleaved small-step semantics of concurrent `fetch_and_start`
callers.  Each database statement of the source is one atomic step: the
select (returning "no job" or remembering the selected id) and the
conditional update (claiming the row, or losing the race and looping). -/
inductive Step : Sys → Sys → Prop where
  | selectNone (s : Sys) (c : Nat) :
      s.workers c = .idle → selectId s.table = none →
      Step s ⟨s.table, Function.update s.workers c (.returned none)⟩
  | selectSome (s : Sys) (c i : Nat) :
      s.workers c = .idle → selectId s.table = some i →
      Step s ⟨s.table, Function.update s.workers c (.selected i)⟩
  | casWin (s : Sys) (c i now : Nat) :
      s.workers c = .selected i → (casUpdate now i s.table).1 ≠ 0 →
      Step s ⟨(casUpdate now i s.table).2,
              Function.update s.workers c (.returned (some i))⟩
  | casLose (s : Sys) (c i now : Nat) :
      s.workers c = .selected i → (casUpdate now i s.table).1 = 0 →
      Step s ⟨s.table, Function.update s.workers c .idle⟩

/-- Reflexive-transitive closure of `Step`. -/
inductive Reach : Sys → Sys → Prop where
  | refl (s : Sys) : Reach s s
  | tail {s t u : Sys} : Reach s t → Step t u → Reach s u

/-- Initial system: a given table, every caller idle. -/
def initSys (t : List Row) : Sys := ⟨t, fun _ => .idle⟩

/-- Invariant of the claiming protocol: every id already returned to some
caller has all its rows claimed (started_at non-null), and no id has been
returned to two distinct callers. -/
def ClaimInv (s : Sys) : Prop :=
  (∀ i c, s.workers c = .returned (some i) →
    ∀ r ∈ s.table, r.id = i → isPending r = false) ∧
  (∀ i c c', s.workers c = .returned (some i) →
    s.workers c' = .returned (some i) → c = c')

theorem finishKeep_iff (i : Nat) (r : Row) :
    finishKeep i r = true ↔ (r.id = i → isPending r = true) := by
  by_cases h1 : r.id = i <;> by_cases h2 : isPending r = true <;>
    simp [finishKeep, h1, h2]

theorem finish_cols_zero_iff (t : List Row) (i : Nat) :
    t.length - (t.filter (finishKeep i)).length = 0 ↔
      ∀ r ∈ t, finishKeep i r = true := by
  have hle := List.length_filter_le (finishKeep i) t
  constructor
  · intro h r hr
    have hlen : (t.filter (finishKeep i)).length = t.length := by omega
    exact List.filter_length_eq_length.mp hlen r hr
  · intro h
    have : (t.filter (finishKeep i)).length = t.length :=
      List.filter_length_eq_length.mpr h
    omega

theorem finish_job_of_all (t : List Row) (i : Nat)
    (h : ∀ r ∈ t, finishKeep i r = true) :
    finish_job t i = (.error (.jobAborted i), t) := by
  have hz : t.length - (t.filter (finishKeep i)).length = 0 :=
    (finish_cols_zero_iff t i).mpr h
  show (if _ then _ else _) = _
  rw [if_pos hz]

theorem finish_job_of_not_all (t : List Row) (i : Nat)
    (h : ¬ ∀ r ∈ t, finishKeep i r = true) :
    finish_job t i = (.ok (), t.filter (finishKeep i)) := by
  have hz : ¬ t.length - (t.filter (finishKeep i)).length = 0 :=
    fun hz => h ((finish_cols_zero_iff t i).mp hz)
  show (if _ then _ else _) = _
  rw [if_neg hz]

/-- C4: for every constructible command `c`, `serialize` yields a
`(kind, payload)` pair and `deserialize` on that pair returns `c`. -/
theorem command_round_trip (c : JobCommand) :
    ∃ k p, JobCommand.serialize c = some (k, p) ∧
      JobCommand.deserialize k p = Except.ok c := by
  cases c with
  | syncBranch b => exact ⟨"SyncBranch", .num b, rfl, by simp [JobCommand.deserialize]⟩

/-- C9: `serialize` is total (the internal unwraps are unreachable, so it
never panics) and deterministic: equal commands give equal pairs. -/
theorem serialize_total_deterministic (c : JobCommand) :
    (∃ kp, JobCommand.serialize c = some kp) ∧
      ∀ c', c' = c → JobCommand.serialize c' = JobCommand.serialize c := by
  refine ⟨?_, fun c' h => by rw [h]⟩
  cases c with
  | syncBranch b => exact ⟨("SyncBranch", .num b), rfl⟩

/-- Witness for C9 at a concrete command. -/
theorem serialize_total_deterministic_witness :
    (∃ kp, JobCommand.serialize (.syncBranch 7) = some kp) ∧
      ∀ c', c' = JobCommand.syncBranch 7 →
        JobCommand.serialize c' = JobCommand.serialize (.syncBranch 7) :=
  serialize_total_deterministic (.syncBranch 7)

/-- C8: `deserialize` fails with a decode error whenever the kind is not a
known variant or the payload does not match the schema the kind implies; it
never silently returns a command on such inputs. -/
theorem deserialize_rejects_invalid (k : String) (v : Json)
    (h : k ≠ "SyncBranch" ∨ payloadIsNum v = false) :
    ∃ e, JobCommand.deserialize k v = Except.error e := by
  by_cases hk : k = "SyncBranch"
  · subst hk
    rcases h with h | h
    · exact absurd rfl h
    · cases v <;> simp_all [JobCommand.deserialize, payloadIsNum]
  · exact ⟨"unknown variant " ++ k, by simp [JobCommand.deserialize, hk]⟩

/-- Witness for C8: an unknown kind and a mismatched payload both fail. -/
theorem deserialize_rejects_invalid_witness :
    (∃ e, JobCommand.deserialize "bogus" (.num 3) = Except.error e) ∧
      ∃ e, JobCommand.deserialize "SyncBranch" (.str "x") = Except.error e :=
  ⟨deserialize_rejects_invalid "bogus" (.num 3) (by simp),
   deserialize_rejects_invalid "SyncBranch" (.str "x") (by simp [payloadIsNum])⟩

/-- C6 (evaluation at the failing input): with two claimed rows in the table
and `max = 1`, `count_pending` returns 2 — the `LIMIT` clause limits the
result rows of the aggregate (always one row), not the counted value, so the
returned integer is not capped at `max`. -/
theorem count_pending_not_capped :
    count_pending
      [{ id := 1, kind := "SyncBranch", data := .num 1, priority := 100,
         started_at := some 3 },
       { id := 2, kind := "SyncBranch", data := .num 2, priority := 100,
         started_at := some 4 }] 1 = .ok 2 := rfl

/-- C5: `finish_job` deletes exactly the claimed row matching `id`; it fails
with `JobAborted` exactly when zero rows are affected (the id is absent or
the row is still unclaimed), leaving the table unchanged; finishing the same
id twice succeeds then aborts; finishing a never-claimed id aborts. -/
theorem finish_job_semantics (t : List Row) (i : Nat) :
    ((finish_job t i).1 = .error (.jobAborted i) ↔
        ∀ r ∈ t, r.id = i → isPending r = true)
    ∧ ((finish_job t i).1 = .error (.jobAborted i) → (finish_job t i).2 = t)
    ∧ ((finish_job t i).1 = .ok () →
        (finish_job t i).2 = t.filter (finishKeep i))
    ∧ ((∃ r ∈ t, r.id = i ∧ isPending r = false) →
        (finish_job t i).1 = .ok () ∧
          (finish_job (finish_job t i).2 i).1 = .error (.jobAborted i))
    ∧ ((∀ r ∈ t, r.id = i → isPending r = true) →
        (finish_job t i).1 = .error (.jobAborted i) ∧ (finish_job t i).2 = t) := by
  by_cases hall : ∀ r ∈ t, finishKeep i r = true
  · rw [finish_job_of_all t i hall]
    refine ⟨?_, fun _ => rfl, ?_, ?_, fun _ => ⟨rfl, rfl⟩⟩
    · exact iff_of_true rfl fun r hr => (finishKeep_iff i r).mp (hall r hr)
    · intro hok
      simp at hok
    · rintro ⟨r, hr, hid, hp⟩
      have := (finishKeep_iff i r).mp (hall r hr) hid
      rw [hp] at this
      cases this
  · rw [finish_job_of_not_all t i hall]
    refine ⟨?_, ?_, fun _ => rfl, fun _ => ⟨rfl, ?_⟩, ?_⟩
    · refine iff_of_false (by simp) fun hforall => ?_
      exact hall fun r hr => (finishKeep_iff i r).mpr (hforall r hr)
    · intro herr
      simp at herr
    · have hall2 : ∀ r ∈ t.filter (finishKeep i), finishKeep i r = true :=
        fun r hr => List.of_mem_filter hr
      rw [finish_job_of_all _ i hall2]
    · intro hforall
      exact absurd (fun r hr => (finishKeep_iff i r).mpr (hforall r hr)) hall

/-- Witness for C5 at a concrete table: one claimed row with id 5. -/
theorem finish_job_semantics_witness :
    ((∃ r ∈ [{ id := 5, kind := "SyncBranch", data := Json.num 1, priority := 100,
               started_at := some 2 : Row }],
        r.id = 5 ∧ isPending r = false) →
      (finish_job [{ id := 5, kind := "SyncBranch", data := Json.num 1, priority := 100,
                     started_at := some 2 : Row }] 5).1 = .ok () ∧
        (finish_job (finish_job [{ id := 5, kind := "SyncBranch", data := Json.num 1,
                                   priority := 100, started_at := some 2 : Row }] 5).2
          5).1 = .error (.jobAborted 5)) ∧
    (finish_job [{ id := 5, kind := "SyncBranch", data := Json.num 1, priority := 100,
                   started_at := some 2 : Row }] 5).1 = .ok () := by
  have h := finish_job_semantics
    [{ id := 5, kind := "SyncBranch", data := Json.num 1, priority := 100,
       started_at := some 2 : Row }] 5
  refine ⟨h.2.2.2.1, ?_⟩
  exact (h.2.2.2.1 (by decide)).1

/-- C7: `enqueue` is `enqueue_with_priority` at the default priority 100, and
an enqueue serializes the command and appends exactly one row carrying the
fresh id, with `started_at` null. -/
theorem enqueue_inserts_pending (g : Nat) (t : List Row) (job : JobCommand)
    (h : ∀ r ∈ t, r.id < g) :
    enqueue g t job = enqueue_with_priority g t job 100 ∧
    ∃ k d, JobCommand.serialize job = some (k, d) ∧
      enqueue g t job =
        some (t ++ [{ id := g, kind := k, data := d, priority := 100,
                      started_at := none }]) ∧
      g ∉ t.map Row.id := by
  refine ⟨rfl, ?_⟩
  cases job with
  | syncBranch b =>
    refine ⟨"SyncBranch", .num b, rfl, rfl, ?_⟩
    · simp only [List.mem_map, not_exists]
      rintro r ⟨hr, hid⟩
      have := h r hr
      omega

theorem keyLt_irrefl (a : Row) : ¬ keyLt a a := by
  rintro (h | ⟨h1, h2⟩) <;> omega

theorem keyLt_asymm (a b : Row) (h : keyLt a b) : ¬ keyLt b a := by
  rcases h with h | ⟨h1, h2⟩ <;> rintro (h' | ⟨h1', h2'⟩) <;> omega

theorem keyLe_trans {a b c : Row} (hab : ¬ keyLt b a) (hbc : ¬ keyLt c b) :
    ¬ keyLt c a := by
  have hp1 : ¬ a.priority < b.priority := fun h' => hab (Or.inl h')
  have hp2 : ¬ b.priority < c.priority := fun h' => hbc (Or.inl h')
  rintro (h | ⟨h1, h2⟩)
  · omega
  · have hba : b.priority = a.priority := by omega
    have hcb : c.priority = b.priority := by omega
    have hid1 : ¬ b.id < a.id := fun hid => hab (Or.inr ⟨hba, hid⟩)
    have hid2 : ¬ c.id < b.id := fun hid => hbc (Or.inr ⟨hcb, hid⟩)
    omega

theorem selectMin_isSome {l : List Row} (h : l ≠ []) : ∃ m, selectMin l = some m := by
  cases l with
  | nil => exact absurd rfl h
  | cons r rs =>
    cases h' : selectMin rs with
    | none => exact ⟨r, by simp [selectMin, h']⟩
    | some m =>
      by_cases hk : keyLt m r
      · exact ⟨m, by simp [selectMin, h', hk]⟩
      · exact ⟨r, by simp [selectMin, h', hk]⟩

theorem selectMin_mem {l : List Row} {m : Row} (h : selectMin l = some m) :
    m ∈ l := by
  induction l with
  | nil => simp [selectMin] at h
  | cons r rs ih =>
    simp only [selectMin] at h
    cases h' : selectMin rs with
    | none =>
      rw [h'] at h
      injection h with h
      exact h ▸ List.mem_cons_self r rs
    | some m' =>
      rw [h'] at h
      dsimp only at h
      by_cases hk : keyLt m' r
      · rw [if_pos hk] at h
        injection h with h
        subst h
        exact List.mem_cons_of_mem r (ih h')
      · rw [if_neg hk] at h
        injection h with h
        exact h ▸ List.mem_cons_self r rs

theorem selectMin_min {l : List Row} :
    ∀ {m : Row}, selectMin l = some m → ∀ x ∈ l, ¬ keyLt x m := by
  induction l with
  | nil => intro m h; simp [selectMin] at h
  | cons r rs ih =>
    intro m h
    simp only [selectMin] at h
    cases h' : selectMin rs with
    | none =>
      rw [h'] at h
      injection h with h
      subst h
      have hrs : rs = [] := by
        cases hrs : rs with
        | nil => rfl
        | cons a as =>
          obtain ⟨m', hm'⟩ := selectMin_isSome (show (a :: as : List Row) ≠ [] by simp)
          rw [hrs, hm'] at h'
          cases h'
      subst hrs
      intro x hx
      rcases List.mem_cons.mp hx with rfl | hx'
      · exact keyLt_irrefl _
      · cases hx'
    | some m' =>
      rw [h'] at h
      dsimp only at h
      by_cases hk : keyLt m' r
      · rw [if_pos hk] at h
        injection h with h
        subst h
        intro x hx
        rcases List.mem_cons.mp hx with rfl | hx'
        · exact keyLt_asymm _ _ hk
        · exact ih h' x hx'
      · rw [if_neg hk] at h
        injection h with h
        subst h
        intro x hx
        rcases List.mem_cons.mp hx with rfl | hx'
        · exact keyLt_irrefl _
        · exact keyLe_trans hk (ih h' x hx')

theorem id_inj {t : List Row} (hnd : (t.map Row.id).Nodup) {x y : Row}
    (hx : x ∈ t) (hy : y ∈ t) (h : x.id = y.id) : x = y :=
  List.inj_on_of_nodup_map hnd hx hy h

theorem casFn_of_ne {i : Nat} {r : Row} (now : Nat) (h : r.id ≠ i) :
    casFn now i r = r := by
  simp [casFn, h]

theorem casFn_keeps_fields (now i : Nat) (r : Row) :
    (casFn now i r).id = r.id ∧ (casFn now i r).kind = r.kind ∧
      (casFn now i r).data = r.data ∧ (casFn now i r).priority = r.priority := by
  unfold casFn
  split <;> exact ⟨rfl, rfl, rfl, rfl⟩

theorem ids_map_cas (now i : Nat) (t : List Row) :
    (t.map (casFn now i)).map Row.id = t.map Row.id := by
  rw [List.map_map]
  exact List.map_congr_left fun x _ => (casFn_keeps_fields now i x).1

theorem wellFormed_map_cas {t : List Row} (now i : Nat) (h : wellFormed t) :
    wellFormed (t.map (casFn now i)) := by
  intro y hy
  rcases List.mem_map.mp hy with ⟨x, hx, rfl⟩
  have hk := (casFn_keeps_fields now i x).2.1
  have hd := (casFn_keeps_fields now i x).2.2.1
  rw [hk, hd]
  exact h x hx

theorem mem_map_cas_of_ne {t : List Row} {x : Row} {i : Nat} (now : Nat)
    (hx : x ∈ t) (hne : x.id ≠ i) : x ∈ t.map (casFn now i) :=
  casFn_of_ne now hne ▸ List.mem_map_of_mem (casFn now i) hx

theorem pendingCount_cons (x : Row) (xs : List Row) :
    pendingCount (x :: xs) = (if isPending x then 1 else 0) + pendingCount xs := by
  by_cases h : isPending x = true <;> simp [pendingCount, List.filter_cons, h] <;> omega

theorem pendingCase (now i : Nat) (x : Row) :
    (if isPending (casFn now i x) then 1 else 0) ≤ (if isPending x then 1 else 0) := by
  by_cases h1 : x.id = i <;> by_cases h2 : isPending x = true <;>
    simp [casFn, h1, h2, isPending] at * <;> simp_all

theorem pendingCount_map_cas_le (now i : Nat) (t : List Row) :
    pendingCount (t.map (casFn now i)) ≤ pendingCount t := by
  induction t with
  | nil => simp [pendingCount]
  | cons x xs ih =>
    simp only [List.map_cons, pendingCount_cons]
    have hx := pendingCase now i x
    omega

theorem pendingCount_map_cas_lt {t : List Row} {r : Row} (now : Nat)
    (hr : r ∈ t) (hp : isPending r = true) :
    pendingCount (t.map (casFn now r.id)) < pendingCount t := by
  induction t with
  | nil => cases hr
  | cons x xs ih =>
    simp only [List.map_cons, pendingCount_cons]
    rcases List.mem_cons.mp hr with rfl | hr'
    · have hx : isPending (casFn now r.id r) = false := by
        unfold casFn
        rw [if_pos ⟨rfl, hp⟩]
        rfl
      have hle := pendingCount_map_cas_le now r.id xs
      simp only [hx, hp, Bool.false_eq_true, if_true, if_false]
      omega
    · have hx := pendingCase now r.id x
      have := ih hr'
      omega

theorem ex_of_isOk {e : Except String JobCommand} (h : e.isOk = true) :
    ∃ c, e = .ok c := by
  cases e with
  | ok c => exact ⟨c, rfl⟩
  | error err => simp [Except.isOk, Except.toBool] at h

theorem fetch_cas_hits {t : List Row} {r : Row} (now : Nat)
    (hsel : selectMin (t.filter fun r => isPending r) = some r) :
    (casUpdate now r.id t).1 ≠ 0 := by
  have hmem := selectMin_mem hsel
  have hr : r ∈ t := List.mem_of_mem_filter hmem
  have hp : isPending r = true := List.of_mem_filter hmem
  have : r ∈ t.filter fun x => decide (x.id = r.id) && isPending x :=
    List.mem_filter.mpr ⟨hr, by simp [hp]⟩
  have hpos := List.length_pos.mpr (List.ne_nil_of_mem this)
  simp only [casUpdate]
  omega

theorem fetch_of_selectMin_none {t : List Row} (now : Nat)
    (hsel : selectMin (t.filter fun r => isPending r) = none) :
    fetch_and_start now t = (.ok none, t) := by
  simp [fetch_and_start, hsel]

theorem fetch_of_selectMin_error {t : List Row} {r : Row} {e : String} (now : Nat)
    (hsel : selectMin (t.filter fun r => isPending r) = some r)
    (hdes : JobCommand.deserialize r.kind r.data = .error e) :
    fetch_and_start now t = (.error e, t.map (casFn now r.id)) := by
  simp [fetch_and_start, hsel, hdes, casUpdate]

theorem fetch_of_selectMin_some {t : List Row} {r : Row} {cmd : JobCommand} (now : Nat)
    (hsel : selectMin (t.filter fun r => isPending r) = some r)
    (hdes : JobCommand.deserialize r.kind r.data = .ok cmd) :
    fetch_and_start now t =
      (.ok (some { id := r.id, command := cmd }), t.map (casFn now r.id)) := by
  simp [fetch_and_start, hsel, hdes, casUpdate]

theorem pendingCount_pos_of_mem {t : List Row} {b : Row} (hb : b ∈ t)
    (hp : isPending b = true) : 0 < pendingCount t := by
  have : b ∈ t.filter fun r => isPending r := List.mem_filter.mpr ⟨hb, hp⟩
  exact List.length_pos.mpr (List.ne_nil_of_mem this)

theorem occursBefore_cons {x y z : Nat} {l : List Nat}
    (h : occursBefore x y l) : occursBefore x y (z :: l) := by
  obtain ⟨l1, l2, l3, rfl⟩ := h
  exact ⟨z :: l1, l2, l3, rfl⟩

theorem occursBefore_head {x y : Nat} {l : List Nat} (h : y ∈ l) :
    occursBefore x y (x :: l) := by
  obtain ⟨s, u, rfl⟩ := List.append_of_mem h
  exact ⟨[], s, u, rfl⟩

theorem drain_complete (now fuel : Nat) {t : List Row} {b : Row}
    (hwf : wellFormed t) (hb : b ∈ t) (hp : isPending b = true)
    (hfuel : pendingCount t ≤ fuel) :
    b.id ∈ (drain now fuel t).map Job.id := by
  induction fuel generalizing t with
  | zero =>
    have := pendingCount_pos_of_mem hb hp
    omega
  | succ n ih =>
    have hne : t.filter (fun r => isPending r) ≠ [] :=
      List.ne_nil_of_mem (List.mem_filter.mpr ⟨hb, hp⟩)
    obtain ⟨r, hsel⟩ := selectMin_isSome hne
    have hrmem : r ∈ t := List.mem_of_mem_filter (selectMin_mem hsel)
    obtain ⟨cmd, hcmd⟩ := ex_of_isOk (hwf r hrmem)
    have hfetch := fetch_of_selectMin_some now hsel hcmd
    have hrpend : isPending r = true := List.of_mem_filter (selectMin_mem hsel)
    by_cases hid : r.id = b.id
    · simp [drain, hfetch, hid]
    · have hb' : b ∈ t.map (casFn now r.id) :=
        mem_map_cas_of_ne now hb fun h => hid (h ▸ rfl)
      have hcount := pendingCount_map_cas_lt now hrmem hrpend
      have htail := ih (wellFormed_map_cas now r.id hwf) hb' (by omega)
      simp [drain, hfetch]
      right
      simpa using htail

theorem drain_order {now : Nat} {fuel : Nat} {t : List Row} {a b : Row}
    (hnd : (t.map Row.id).Nodup) (hwf : wellFormed t)
    (ha : a ∈ t) (hb : b ∈ t) (hpa : isPending a = true) (hpb : isPending b = true)
    (hab : keyLt a b) (hfuel : pendingCount t ≤ fuel) :
    occursBefore a.id b.id ((drain now fuel t).map Job.id) := by
  induction fuel generalizing t with
  | zero =>
    have := pendingCount_pos_of_mem ha hpa
    omega
  | succ n ih =>
    have hne : t.filter (fun r => isPending r) ≠ [] :=
      List.ne_nil_of_mem (List.mem_filter.mpr ⟨ha, hpa⟩)
    obtain ⟨r, hsel⟩ := selectMin_isSome hne
    have hrmem : r ∈ t := List.mem_of_mem_filter (selectMin_mem hsel)
    have hrpend : isPending r = true := List.of_mem_filter (selectMin_mem hsel)
    obtain ⟨cmd, hcmd⟩ := ex_of_isOk (hwf r hrmem)
    have hfetch := fetch_of_selectMin_some now hsel hcmd
    have hmin : ∀ x ∈ t, isPending x = true → ¬ keyLt x r :=
      fun x hx hpx => selectMin_min hsel x (List.mem_filter.mpr ⟨hx, hpx⟩)
    have hrb : r.id ≠ b.id := by
      intro h
      have : r = b := id_inj hnd hrmem hb h
      subst this
      exact hmin a ha hpa hab
    have hcount := pendingCount_map_cas_lt now hrmem hrpend
    by_cases hra : r.id = a.id
    · have : r = a := id_inj hnd hrmem ha hra
      subst this
      have hb' : b ∈ t.map (casFn now r.id) :=
        mem_map_cas_of_ne now hb fun h => hrb h.symm
      have hmem := drain_complete now n (wellFormed_map_cas now r.id hwf) hb' hpb
        (by omega)
      simp only [drain, hfetch]
      exact occursBefore_head hmem
    · have ha' : a ∈ t.map (casFn now r.id) :=
        mem_map_cas_of_ne now ha fun h => hra h.symm
      have hb' : b ∈ t.map (casFn now r.id) :=
        mem_map_cas_of_ne now hb fun h => hrb h.symm
      have hnd' : ((t.map (casFn now r.id)).map Row.id).Nodup := by
        rw [ids_map_cas]
        exact hnd
      have htail := ih hnd' (wellFormed_map_cas now r.id hwf) ha' hb' (by omega)
      simp only [drain, hfetch]
      exact occursBefore_cons htail

theorem u16ToI16_mono {p1 p2 : Nat} (h : p2 < p1) (hle : p1 ≤ 32767) :
    u16ToI16 p2 < u16ToI16 p1 := by
  have h1 : p1 % 65536 = p1 := Nat.mod_eq_of_lt (by omega)
  have h2 : p2 % 65536 = p2 := Nat.mod_eq_of_lt (by omega)
  unfold u16ToI16
  rw [h1, h2, if_pos (show p1 < 32768 by omega), if_pos (show p2 < 32768 by omega)]
  omega

/-- C2 counterexample: enqueue a job with u16 priority 40000 (id 1), then one
with priority 100 (id 2).  40000 > 100, yet the claim sequence returns the
priority-100 job first: the `as i16` cast stores 40000 as -25536, which sorts
below 100 under `ORDER BY priority DESC`. -/
theorem priority_unsigned_order_counterexample :
    40000 > 100 ∧
    enqueue_with_priority 1 [] (.syncBranch 1) 40000 =
      some [{ id := 1, kind := "SyncBranch", data := .num 1, priority := -25536,
              started_at := none }] ∧
    enqueue_with_priority 2
      [{ id := 1, kind := "SyncBranch", data := .num 1, priority := -25536,
         started_at := none }] (.syncBranch 2) 100 =
      some [{ id := 1, kind := "SyncBranch", data := .num 1, priority := -25536,
              started_at := none },
            { id := 2, kind := "SyncBranch", data := .num 2, priority := 100,
              started_at := none }] ∧
    (drain 7 2
      [{ id := 1, kind := "SyncBranch", data := .num 1, priority := -25536,
         started_at := none },
       { id := 2, kind := "SyncBranch", data := .num 2, priority := 100,
         started_at := none }]).map Job.id = [2, 1] :=
  ⟨by norm_num, rfl, rfl, rfl⟩

/-- C2 amended: for pending jobs whose u16 priorities `p1 > p2` lie in the
range the i16 cast preserves (both at most 32767), the `p1` job is claimed
strictly before the `p2` job, whatever the enqueue order of the ids. -/
theorem priority_order_within_i16_range (now fuel p1 p2 : Nat) (t : List Row)
    (a b : Row)
    (hnd : (t.map Row.id).Nodup) (hwf : wellFormed t)
    (ha : a ∈ t) (hb : b ∈ t)
    (hpa : isPending a = true) (hpb : isPending b = true)
    (hap : a.priority = u16ToI16 p1) (hbp : b.priority = u16ToI16 p2)
    (hgt : p2 < p1) (hle : p1 ≤ 32767)
    (hfuel : pendingCount t ≤ fuel) :
    occursBefore a.id b.id ((drain now fuel t).map Job.id) := by
  have hlt : b.priority < a.priority := by
    rw [hap, hbp]
    exact u16ToI16_mono hgt hle
  exact drain_order hnd hwf ha hb hpa hpb (Or.inl hlt) hfuel

/-- Witness for the amended C2 on a concrete two-row table. -/
theorem priority_order_within_i16_range_witness :
    occursBefore 1 2
      ((drain 7 2
        [{ id := 1, kind := "SyncBranch", data := .num 1, priority := 150,
           started_at := none },
         { id := 2, kind := "SyncBranch", data := .num 2, priority := 100,
           started_at := none }]).map Job.id) :=
  priority_order_within_i16_range 7 2 150 100
    [{ id := 1, kind := "SyncBranch", data := .num 1, priority := 150,
       started_at := none },
     { id := 2, kind := "SyncBranch", data := .num 2, priority := 100,
       started_at := none }]
    { id := 1, kind := "SyncBranch", data := .num 1, priority := 150,
      started_at := none }
    { id := 2, kind := "SyncBranch", data := .num 2, priority := 100,
      started_at := none }
    (by decide) (by decide)
    (by simp) (by simp)
    rfl rfl rfl rfl (by decide) (by decide) (by decide)

/-- C3: equal-priority jobs are claimed in enqueue (id) order, and the
concrete drain scenario: jobs X, Y, Z enqueued with priorities 100, 120, 100
are claimed as Y, X, Z, and the fourth call returns "no job" (`none`, not an
error). -/
theorem fifo_tie_break_and_drain (now fuel : Nat) (t : List Row) (a b : Row)
    (hnd : (t.map Row.id).Nodup) (hwf : wellFormed t)
    (ha : a ∈ t) (hb : b ∈ t)
    (hpa : isPending a = true) (hpb : isPending b = true)
    (hprio : a.priority = b.priority) (hid : a.id < b.id)
    (hfuel : pendingCount t ≤ fuel) :
    occursBefore a.id b.id ((drain now fuel t).map Job.id) ∧
    drain 7 4
      [{ id := 1, kind := "SyncBranch", data := .num 10, priority := 100,
         started_at := none },
       { id := 2, kind := "SyncBranch", data := .num 20, priority := 120,
         started_at := none },
       { id := 3, kind := "SyncBranch", data := .num 30, priority := 100,
         started_at := none }] =
      [{ id := 2, command := .syncBranch 20 },
       { id := 1, command := .syncBranch 10 },
       { id := 3, command := .syncBranch 30 }] ∧
    (fetch_and_start 7
      (fetch_and_start 7
        (fetch_and_start 7
          (fetch_and_start 7
            [{ id := 1, kind := "SyncBranch", data := .num 10, priority := 100,
               started_at := none },
             { id := 2, kind := "SyncBranch", data := .num 20, priority := 120,
               started_at := none },
             { id := 3, kind := "SyncBranch", data := .num 30, priority := 100,
               started_at := none }]).2).2).2).1 = .ok none := by
  refine ⟨?_, rfl, rfl⟩
  exact drain_order hnd hwf ha hb hpa hpb (Or.inr ⟨hprio, hid⟩) hfuel

/-- Witness for C3 on the concrete three-row table (equal-priority rows X
and Z, enqueued in that id order). -/
theorem fifo_tie_break_and_drain_witness :
    occursBefore 1 3
      ((drain 7 3
        [{ id := 1, kind := "SyncBranch", data := .num 10, priority := 100,
           started_at := none },
         { id := 2, kind := "SyncBranch", data := .num 20, priority := 120,
           started_at := none },
         { id := 3, kind := "SyncBranch", data := .num 30, priority := 100,
           started_at := none }]).map Job.id) :=
  (fifo_tie_break_and_drain 7 3
    [{ id := 1, kind := "SyncBranch", data := .num 10, priority := 100,
       started_at := none },
     { id := 2, kind := "SyncBranch", data := .num 20, priority := 120,
       started_at := none },
     { id := 3, kind := "SyncBranch", data := .num 30, priority := 100,
       started_at := none }]
    { id := 1, kind := "SyncBranch", data := .num 10, priority := 100,
      started_at := none }
    { id := 3, kind := "SyncBranch", data := .num 30, priority := 100,
      started_at := none }
    (by decide) (by decide)
    (by simp) (by simp)
    rfl rfl rfl (by decide) (by decide)).1

theorem isPending_true_iff (r : Row) : isPending r = true ↔ r.started_at = none :=
  Option.isNone_iff_eq_none

theorem finishKeep_false_iff (i : Nat) (r : Row) :
    finishKeep i r = false ↔ r.id = i ∧ r.started_at ≠ none := by
  rcases hs : r.started_at with _ | v <;> by_cases h1 : r.id = i <;>
    simp [finishKeep, isPending, h1, hs]

theorem filter_finishKeep_eraseIdx {i : Nat} :
    ∀ {t : List Row}, (t.map Row.id).Nodup →
      ∀ {r : Row}, r ∈ t → finishKeep i r = false →
      ∃ n, ∃ hn : n < t.length, t[n].id = i ∧ t[n].started_at ≠ none ∧
        t.filter (finishKeep i) = t.eraseIdx n := by
  intro t
  induction t with
  | nil =>
    intro _ r hr
    cases hr
  | cons x xs ih =>
    intro hnd r hr hbad
    simp only [List.map_cons, List.nodup_cons] at hnd
    by_cases hx : finishKeep i x = false
    · obtain ⟨hxid, hxst⟩ := (finishKeep_false_iff i x).mp hx
      refine ⟨0, by simp, hxid, hxst, ?_⟩
      have hxs : ∀ y ∈ xs, finishKeep i y = true := by
        intro y hy
        have hyid : y.id ≠ i := by
          intro h
          apply hnd.1
          rw [hxid, ← h]
          exact List.mem_map_of_mem Row.id hy
        simp [finishKeep, hyid]
      rw [List.filter_cons_of_neg (by simp [hx]), List.filter_eq_self.mpr hxs]
      rfl
    · have hx' : finishKeep i x = true := by
        cases hfk : finishKeep i x with
        | false => exact absurd hfk hx
        | true => rfl
      have hr' : r ∈ xs := by
        rcases List.mem_cons.mp hr with rfl | hr'
        · rw [hbad] at hx'
          cases hx'
        · exact hr'
      obtain ⟨n, hn, h1, h2, h3⟩ := ih hnd.2 hr' hbad
      refine ⟨n + 1, Nat.succ_lt_succ hn, h1, h2, ?_⟩
      rw [List.filter_cons_of_pos hx', h3]
      rfl

/-- C10: a successful `fetch_and_start` updates only the returned row, and of
it only the `started_at` field (null to the timestamp), and no other row; a
successful `finish_job` removes exactly one row (the claimed row with the
given id) and leaves every other row unchanged. -/
theorem mutation_frame_conditions (now : Nat) (t : List Row) (i : Nat) (j : Job)
    (hnd : (t.map Row.id).Nodup) :
    ((fetch_and_start now t).1 = .ok (some j) →
      ∃ n, ∃ hn : n < t.length, t[n].id = j.id ∧ t[n].started_at = none ∧
        (fetch_and_start now t).2 =
          t.set n { t[n] with started_at := some now })
    ∧ ((finish_job t i).1 = .ok () →
      ∃ n, ∃ hn : n < t.length, t[n].id = i ∧ t[n].started_at ≠ none ∧
        (finish_job t i).2 = t.eraseIdx n) := by
  constructor
  · intro hok
    cases hsel : selectMin (t.filter fun r => isPending r) with
    | none =>
      rw [fetch_of_selectMin_none now hsel] at hok
      simp at hok
    | some r =>
      have hrmem : r ∈ t := List.mem_of_mem_filter (selectMin_mem hsel)
      have hrpend : isPending r = true := List.of_mem_filter (selectMin_mem hsel)
      cases hdes : JobCommand.deserialize r.kind r.data with
      | error e =>
        rw [fetch_of_selectMin_error now hsel hdes] at hok
        simp at hok
      | ok cmd =>
        have hfetch := fetch_of_selectMin_some now hsel hdes
        rw [hfetch] at hok
        have hok' : Except.ok (some { id := r.id, command := cmd })
            = (Except.ok (some j) : Except String (Option Job)) := hok
        simp only [Except.ok.injEq, Option.some.injEq] at hok'
        obtain ⟨⟨n, hn⟩, hget⟩ := List.mem_iff_get.mp hrmem
        have hgetE : t[n] = r := by
          rw [← List.get_eq_getElem t ⟨n, hn⟩]
          exact hget
        refine ⟨n, hn, ?_, ?_, ?_⟩
        · rw [hgetE, ← hok']
        · rw [hgetE]
          exact (isPending_true_iff r).mp hrpend
        · rw [hfetch]
          show t.map (casFn now r.id) = _
          apply List.ext_getElem (by simp)
          intro m h1 h2
          have hmt : m < t.length := by simpa using h1
          rw [List.getElem_map]
          by_cases hmn : m = n
          · subst hmn
            rw [List.getElem_set_self, hgetE]
            unfold casFn
            rw [if_pos ⟨rfl, hrpend⟩]
          · rw [List.getElem_set_ne fun h => hmn h.symm]
            have hid_ne : (t[m]).id ≠ r.id := by
              intro hide
              apply hmn
              have hmm : m < (t.map Row.id).length := by simpa using hmt
              have hnn : n < (t.map Row.id).length := by simpa using hn
              have hmap : (t.map Row.id)[m] = (t.map Row.id)[n] := by
                rw [List.getElem_map, List.getElem_map, hgetE, hide]
              exact (List.Nodup.getElem_inj_iff hnd).mp hmap
            exact casFn_of_ne now hid_ne
  · intro hok
    by_cases hall : ∀ r ∈ t, finishKeep i r = true
    · rw [finish_job_of_all t i hall] at hok
      simp at hok
    · push_neg at hall
      obtain ⟨r, hr, hne⟩ := hall
      have hbad : finishKeep i r = false := by
        cases hfk : finishKeep i r with
        | false => rfl
        | true => exact absurd hfk hne
      obtain ⟨n, hn, h1, h2, h3⟩ :=
        filter_finishKeep_eraseIdx hnd hr hbad
      have hnotall : ¬ ∀ x ∈ t, finishKeep i x = true := by
        intro hforall
        rw [hforall r hr] at hbad
        cases hbad
      rw [finish_job_of_not_all t i hnotall]
      exact ⟨n, hn, h1, h2, h3⟩

/-- Witness for C10 on a concrete table: one pending row (id 1, fetched) and
one claimed row (id 2, finished). -/
theorem mutation_frame_conditions_witness :
    (∃ n, ∃ hn : n <
        ([{ id := 1, kind := "SyncBranch", data := Json.num 5, priority := 100,
            started_at := none },
          { id := 2, kind := "SyncBranch", data := Json.num 6, priority := 100,
            started_at := some 3 }] : List Row).length,
      ([{ id := 1, kind := "SyncBranch", data := Json.num 5, priority := 100,
          started_at := none },
        { id := 2, kind := "SyncBranch", data := Json.num 6, priority := 100,
          started_at := some 3 }] : List Row)[n].id =
        (Job.mk 1 (.syncBranch 5)).id ∧
      ([{ id := 1, kind := "SyncBranch", data := Json.num 5, priority := 100,
          started_at := none },
        { id := 2, kind := "SyncBranch", data := Json.num 6, priority := 100,
          started_at := some 3 }] : List Row)[n].started_at = none ∧
      (fetch_and_start 7
        [{ id := 1, kind := "SyncBranch", data := Json.num 5, priority := 100,
           started_at := none },
         { id := 2, kind := "SyncBranch", data := Json.num 6, priority := 100,
           started_at := some 3 }]).2 =
        ([{ id := 1, kind := "SyncBranch", data := Json.num 5, priority := 100,
            started_at := none },
          { id := 2, kind := "SyncBranch", data := Json.num 6, priority := 100,
            started_at := some 3 }] : List Row).set n
          { ([{ id := 1, kind := "SyncBranch", data := Json.num 5, priority := 100,
                started_at := none },
              { id := 2, kind := "SyncBranch", data := Json.num 6, priority := 100,
                started_at := some 3 }] : List Row)[n] with started_at := some 7 })
    ∧ (∃ n, ∃ hn : n <
        ([{ id := 1, kind := "SyncBranch", data := Json.num 5, priority := 100,
            started_at := none },
          { id := 2, kind := "SyncBranch", data := Json.num 6, priority := 100,
            started_at := some 3 }] : List Row).length,
      ([{ id := 1, kind := "SyncBranch", data := Json.num 5, priority := 100,
          started_at := none },
        { id := 2, kind := "SyncBranch", data := Json.num 6, priority := 100,
          started_at := some 3 }] : List Row)[n].id = 2 ∧
      ([{ id := 1, kind := "SyncBranch", data := Json.num 5, priority := 100,
          started_at := none },
        { id := 2, kind := "SyncBranch", data := Json.num 6, priority := 100,
          started_at := some 3 }] : List Row)[n].started_at ≠ none ∧
      (finish_job
        [{ id := 1, kind := "SyncBranch", data := Json.num 5, priority := 100,
           started_at := none },
         { id := 2, kind := "SyncBranch", data := Json.num 6, priority := 100,
           started_at := some 3 }] 2).2 =
        ([{ id := 1, kind := "SyncBranch", data := Json.num 5, priority := 100,
            started_at := none },
          { id := 2, kind := "SyncBranch", data := Json.num 6, priority := 100,
            started_at := some 3 }] : List Row).eraseIdx n) :=
  ⟨(mutation_frame_conditions 7
      [{ id := 1, kind := "SyncBranch", data := Json.num 5, priority := 100,
         started_at := none },
       { id := 2, kind := "SyncBranch", data := Json.num 6, priority := 100,
         started_at := some 3 }] 2 (Job.mk 1 (.syncBranch 5)) (by decide)).1 rfl,
   (mutation_frame_conditions 7
      [{ id := 1, kind := "SyncBranch", data := Json.num 5, priority := 100,
         started_at := none },
       { id := 2, kind := "SyncBranch", data := Json.num 6, priority := 100,
         started_at := some 3 }] 2 (Job.mk 1 (.syncBranch 5)) (by decide)).2 rfl⟩

/-- Witness for C7 at a concrete enqueue on the empty table. -/
theorem enqueue_inserts_pending_witness :
    enqueue 5 [] (.syncBranch 1) = enqueue_with_priority 5 [] (.syncBranch 1) 100 ∧
    ∃ k d, JobCommand.serialize (.syncBranch 1) = some (k, d) ∧
      enqueue 5 [] (.syncBranch 1) =
        some ([] ++ [{ id := 5, kind := k, data := d, priority := 100,
                       started_at := none }]) ∧
      5 ∉ ([] : List Row).map Row.id :=
  enqueue_inserts_pending 5 [] (.syncBranch 1) (by simp)

theorem cas_affected_ne_zero_iff {now i : Nat} {t : List Row} :
    (casUpdate now i t).1 ≠ 0 ↔ ∃ r ∈ t, r.id = i ∧ isPending r = true := by
  constructor
  · intro h
    have hne : t.filter (fun r => decide (r.id = i) && isPending r) ≠ [] := by
      intro he
      apply h
      simp only [casUpdate, he]
      rfl
    obtain ⟨r, hr⟩ := List.exists_mem_of_ne_nil _ hne
    refine ⟨r, List.mem_of_mem_filter hr, ?_⟩
    have := List.of_mem_filter hr
    simpa using this
  · rintro ⟨r, hr, hid, hp⟩
    have hmem : r ∈ t.filter fun r => decide (r.id = i) && isPending r :=
      List.mem_filter.mpr ⟨hr, by simp [hid, hp]⟩
    have := List.length_pos.mpr (List.ne_nil_of_mem hmem)
    simp only [casUpdate]
    omega

theorem casMap_not_pending {now i : Nat} {t : List Row} {r : Row}
    (hr : r ∈ t.map (casFn now i)) (hid : r.id = i) : isPending r = false := by
  rcases List.mem_map.mp hr with ⟨x, hx, rfl⟩
  have hxid : x.id = i := by
    rw [← (casFn_keeps_fields now i x).1]
    exact hid
  by_cases hp : isPending x = true
  · rw [casFn, if_pos ⟨hxid, hp⟩]
    rfl
  · rw [casFn, if_neg fun hc => hp hc.2]
    cases hik : isPending x with
    | false => rfl
    | true => exact absurd hik hp

theorem cas_preserves_claimed {now i i' : Nat} {t : List Row}
    (h : ∀ r ∈ t, r.id = i' → isPending r = false) :
    ∀ r ∈ t.map (casFn now i), r.id = i' → isPending r = false := by
  intro r hr hid
  rcases List.mem_map.mp hr with ⟨x, hx, rfl⟩
  have hxid : x.id = i' := by
    rw [← (casFn_keeps_fields now i x).1]
    exact hid
  have hxp := h x hx hxid
  rw [casFn]
  split
  · rfl
  · exact hxp

theorem claimInv_step {s s' : Sys} (hstep : Step s s') (hinv : ClaimInv s) :
    ClaimInv s' := by
  cases hstep with
  | selectNone c hidle hsel =>
    constructor
    · intro i c' hc' r hr hid
      dsimp only at hc' hr
      by_cases hcc : c' = c
      · subst hcc
        rw [Function.update_same] at hc'
        cases hc'
      · rw [Function.update_noteq hcc] at hc'
        exact hinv.1 i c' hc' r hr hid
    · intro i c1 c2 h1 h2
      dsimp only at h1 h2
      by_cases hc1 : c1 = c
      · subst hc1
        rw [Function.update_same] at h1
        cases h1
      · by_cases hc2 : c2 = c
        · subst hc2
          rw [Function.update_same] at h2
          cases h2
        · rw [Function.update_noteq hc1] at h1
          rw [Function.update_noteq hc2] at h2
          exact hinv.2 i c1 c2 h1 h2
  | selectSome c i hidle hsel =>
    constructor
    · intro i' c' hc' r hr hid
      dsimp only at hc' hr
      by_cases hcc : c' = c
      · subst hcc
        rw [Function.update_same] at hc'
        cases hc'
      · rw [Function.update_noteq hcc] at hc'
        exact hinv.1 i' c' hc' r hr hid
    · intro i' c1 c2 h1 h2
      dsimp only at h1 h2
      by_cases hc1 : c1 = c
      · subst hc1
        rw [Function.update_same] at h1
        cases h1
      · by_cases hc2 : c2 = c
        · subst hc2
          rw [Function.update_same] at h2
          cases h2
        · rw [Function.update_noteq hc1] at h1
          rw [Function.update_noteq hc2] at h2
          exact hinv.2 i' c1 c2 h1 h2
  | casLose c i now hsel hz =>
    constructor
    · intro i' c' hc' r hr hid
      dsimp only at hc' hr
      by_cases hcc : c' = c
      · subst hcc
        rw [Function.update_same] at hc'
        cases hc'
      · rw [Function.update_noteq hcc] at hc'
        exact hinv.1 i' c' hc' r hr hid
    · intro i' c1 c2 h1 h2
      dsimp only at h1 h2
      by_cases hc1 : c1 = c
      · subst hc1
        rw [Function.update_same] at h1
        cases h1
      · by_cases hc2 : c2 = c
        · subst hc2
          rw [Function.update_same] at h2
          cases h2
        · rw [Function.update_noteq hc1] at h1
          rw [Function.update_noteq hc2] at h2
          exact hinv.2 i' c1 c2 h1 h2
  | casWin c i now hsel hne =>
    have hwin : ∃ r ∈ s.table, r.id = i ∧ isPending r = true :=
      cas_affected_ne_zero_iff.mp hne
    constructor
    · intro i' c' hc' r hr hid
      dsimp only at hc' hr
      simp only [casUpdate] at hr
      by_cases hcc : c' = c
      · subst hcc
        rw [Function.update_same] at hc'
        injection hc' with hc'
        injection hc' with hc'
        subst hc'
        exact casMap_not_pending hr hid
      · rw [Function.update_noteq hcc] at hc'
        exact cas_preserves_claimed (hinv.1 i' c' hc') r hr hid
    · intro i' c1 c2 h1 h2
      dsimp only at h1 h2
      by_cases hc1 : c1 = c <;> by_cases hc2 : c2 = c
      · rw [hc1, hc2]
      · subst hc1
        rw [Function.update_same] at h1
        injection h1 with h1
        injection h1 with h1
        rw [Function.update_noteq hc2] at h2
        obtain ⟨r, hr, hid, hp⟩ := hwin
        have := hinv.1 i' c2 h2 r hr (h1 ▸ hid)
        rw [hp] at this
        cases this
      · subst hc2
        rw [Function.update_same] at h2
        injection h2 with h2
        injection h2 with h2
        rw [Function.update_noteq hc1] at h1
        obtain ⟨r, hr, hid, hp⟩ := hwin
        have := hinv.1 i' c1 h1 r hr (h2 ▸ hid)
        rw [hp] at this
        cases this
      · rw [Function.update_noteq hc1] at h1
        rw [Function.update_noteq hc2] at h2
        exact hinv.2 i' c1 c2 h1 h2

theorem claimInv_init (t : List Row) : ClaimInv (initSys t) := by
  constructor
  · intro i c hc
    cases hc
  · intro i c c' hc hc'
    cases hc

theorem claimInv_reach {s0 s : Sys} (hinit : ClaimInv s0) (h : Reach s0 s) :
    ClaimInv s := by
  induction h with
  | refl => exact hinit
  | tail hr hstep ih => exact claimInv_step hstep ih

/-- C1: in every interleaving of concurrent `fetch_and_start` callers, no
job id is ever returned to two distinct callers: the conditional update on
`started_at IS NULL` succeeds for exactly one racing caller. -/
theorem fetch_and_start_at_most_one_claim (t0 : List Row) (s : Sys) (c c' i : Nat)
    (hreach : Reach (initSys t0) s)
    (hc : s.workers c = .returned (some i))
    (hc' : s.workers c' = .returned (some i)) : c = c' :=
  (claimInv_reach (claimInv_init t0) hreach).2 i c c' hc hc'

/-- Witness for C1: a concrete two-step run (select then winning conditional
update) in which caller 0 claims the only pending row. -/
theorem fetch_and_start_at_most_one_claim_witness : (0 : Nat) = 0 :=
  fetch_and_start_at_most_one_claim
    [{ id := 5, kind := "SyncBranch", data := .num 1, priority := 100,
       started_at := none }]
    ⟨(casUpdate 7 5
        [{ id := 5, kind := "SyncBranch", data := .num 1, priority := 100,
           started_at := none }]).2,
      Function.update
        (Function.update (fun _ => WorkerState.idle) 0 (.selected 5)) 0
        (.returned (some 5))⟩
    0 0 5
    (Reach.tail
      (Reach.tail (Reach.refl _)
        (Step.selectSome _ 0 5 rfl (by decide)))
      (Step.casWin _ 0 5 7 (by simp) (by decide)))
    (by simp)
    (by simp)

end JobQueue
